import Mathlib

/-!
Verification of the term-rewriting engine in `lib/AST/RewriteSystem.cpp`
(Knuth–Bendix completion over strings of typed atoms, used for
generic-signature reasoning).

The embedding below translates the C++ source into executable Lean
definitions.  Machine integers are modelled as `Nat`/`Int` (no arithmetic in
the source can overflow on the inputs considered: all values are small list
lengths and comparison results).  The protocol graph is an external
collaborator of the engine (read-only, supplying a total order
`compareProtocols` and an inheritance relation `inheritsFrom`), modelled as a
structure of functions over `Nat`-encoded protocol handles.  Identifiers are
interned strings compared lexicographically, modelled as `String` with a
three-valued comparison.

Code that lives in the missing header `RewriteSystem.h` (the `Rule`
constructor, `Rule::apply`, `Rule::canReduceLeftHandSide`, the atom kind
enumeration, the layout-constraint order) is modelled from the spec; each such
definition carries a doc comment starting `Modelled from the spec:`.

Potentially non-terminating loops of the source (the simplifier's
fixpoint loop, the completion worklist loop, the merge-candidate queue
drain) are modelled with an explicit fuel parameter; running out of fuel
yields `Failure.fuel`.  C++ `assert` statements on paths the claims exercise
are modelled as `Failure.assertFailed`.
-/

set_option maxRecDepth 8000
set_option maxHeartbeats 1000000

/-- Failure modes of the embedded operations: `fuel` models divergence of a
source loop, `assertFailed` models a C++ `assert` firing. -/
inductive Failure where
  | fuel
  | assertFailed
deriving DecidableEq

/-- External protocol graph interface (spec §6): a deterministic total order
`compareProtocols` and an inheritance relation `inheritsFrom` over protocol
handles, consumed read-only by the engine. -/
structure ProtocolGraph where
  compareProtocols : Nat → Nat → Int
  inheritsFrom : Nat → Nat → Bool

/-- Spec §6: `compare_protocols` is a total order.  Only the sign of the
returned `int` is ever consulted by the engine, so validity is stated at the
sign level: zero exactly on equal protocols, and positive on `(p, q)` exactly
when negative on `(q, p)`. -/
def ProtocolGraph.Valid (g : ProtocolGraph) : Prop :=
  (∀ p q, g.compareProtocols p q = 0 ↔ p = q) ∧
  (∀ p q, 0 < g.compareProtocols p q ↔ g.compareProtocols q p < 0)

/-- The alphabet element (`Atom` in the source): a tagged variant with five
kinds.  `AssociatedType` carries a protocol list kept sorted and deduplicated
plus a name; `GenericParam` carries depth and index; `Layout` carries an
opaque constraint with its own total order (modelled as `Nat`). -/
inductive Atom where
  | name (ident : String)
  | protocol (proto : Nat)
  | assocType (protocols : List Nat) (ident : String)
  | genericParam (depth index : Nat)
  | layout (constraint : Nat)
deriving DecidableEq

/-- Modelled from the spec: the fixed kind index of the `Atom::Kind`
enumeration in the missing header (spec §3: Name < Protocol < AssociatedType
< GenericParam < Layout, matching the order of the `switch` cases in the
source). -/
def Atom.kindIndex : Atom → Nat
  | .name _ => 0
  | .protocol _ => 1
  | .assocType _ _ => 2
  | .genericParam _ _ => 3
  | .layout _ => 4

/-- Lexicographic order on character sequences (by code point, with a
proper prefix ordered first), the scan performed by `StringRef::compare`. -/
def charListLt : List Char → List Char → Bool
  | [], [] => false
  | [], _ :: _ => true
  | _ :: _, [] => false
  | c :: cs, d :: ds =>
    if c.toNat < d.toNat then true
    else if d.toNat < c.toNat then false
    else charListLt cs ds

/-- Three-valued lexicographic string comparison (`StringRef::compare`). -/
def cmpStr (s t : String) : Int :=
  if charListLt s.data t.data then -1
  else if charListLt t.data s.data then 1
  else 0

/-- Modelled from the spec: layout constraints are opaque values with their
own total order (`LayoutConstraint::compare`), modelled as `Nat` with the
standard three-valued comparison. -/
def cmpLayout (l l' : Nat) : Int :=
  if l < l' then -1 else if l' < l then 1 else 0

/-- Elementwise comparison of two (equal-length) protocol lists, as in the
`AssociatedType` branch of `Atom::compare`: return the first nonzero
`compareProtocols` result, else 0. -/
def compareProtoLists (g : ProtocolGraph) : List Nat → List Nat → Int
  | p :: ps, q :: qs =>
    if g.compareProtocols p q ≠ 0 then g.compareProtocols p q
    else compareProtoLists g ps qs
  | _, _ => 0

/-- `Atom::compare`: different kinds are ordered by kind index; same kinds by
payload.  In the `AssociatedType` case atoms with more protocols are
smaller. -/
def Atom.compare (g : ProtocolGraph) (a b : Atom) : Int :=
  if a.kindIndex ≠ b.kindIndex then
    (if a.kindIndex < b.kindIndex then -1 else 1)
  else
    match a, b with
    | .name s, .name t => cmpStr s t
    | .protocol p, .protocol q => g.compareProtocols p q
    | .assocType ps s, .assocType qs t =>
      if ps.length ≠ qs.length then
        (if ps.length > qs.length then -1 else 1)
      else
        if compareProtoLists g ps qs ≠ 0 then compareProtoLists g ps qs
        else cmpStr s t
    | .genericParam d i, .genericParam d' i' =>
      if d ≠ d' then (if d < d' then -1 else 1)
      else if i ≠ i' then (if i < i' then -1 else 1)
      else 0
    | .layout l, .layout l' => cmpLayout l l'
    | _, _ => 0   -- unreachable: equal kind indices force equal constructors

/-- A term is a finite ordered sequence of atoms (`Term::Atoms`). -/
abbrev Term := List Atom

/-- Lexicographic atom-wise comparison of two equal-length atom sequences
(the loop body of `Term::compare`). -/
def compareAtomsLex (g : ProtocolGraph) : List Atom → List Atom → Int
  | a :: as, b :: bs =>
    if Atom.compare g a b ≠ 0 then Atom.compare g a b
    else compareAtomsLex g as bs
  | _, _ => 0

/-- `Term::compare`: shortlex — shorter terms are smaller, equal lengths are
compared atom-wise left to right. -/
def Term.compare (g : ProtocolGraph) (t u : Term) : Int :=
  if t.length ≠ u.length then (if t.length < u.length then -1 else 1)
  else compareAtomsLex g t u

/-- Whether `o` matches the front of `s` (the `std::equal(first2, last2,
first1)` pattern of the source). -/
def matchesFront : List Atom → List Atom → Bool
  | [], _ => true
  | _ :: _, [] => false
  | a :: as, b :: bs => if a = b then matchesFront as bs else false

/-- The scan of `std::search`: leftmost offset at which `o` occurs
contiguously in `s`. -/
def searchIdx : List Atom → List Atom → Option Nat
  | [], o => if matchesFront o [] then some 0 else none
  | a :: s', o =>
    if matchesFront o (a :: s') then some 0
    else (searchIdx s' o).map (fun n => n + 1)

/-- `Term::findSubTerm` as an index: `none` when `other` is longer than
`self` or does not occur contiguously. -/
def Term.findSubTerm (self other : Term) : Option Nat :=
  if other.length > self.length then none else searchIdx self other

/-- `Term::rewriteSubTerm`: locate the leftmost occurrence of `lhsT`; if
absent return `none` (the source returns `false` leaving the term
unchanged), else replace that slice by `rhsT`.  The source asserts
`rhs.size() <= lhs.size()`; the splice below is exactly the source's copy
semantics under that precondition, which holds for every oriented rule. -/
def Term.rewriteSubTerm (t lhsT rhsT : Term) : Option Term :=
  match Term.findSubTerm t lhsT with
  | none => none
  | some i => some (t.take i ++ rhsT ++ t.drop (i + lhsT.length))

/-- The scanning loop of `Term::checkForOverlap` after the initial length
guard.  `pre ++ rest` is the whole of `self`; while `other` still fits in
`rest` the containment check runs (phase 1), afterwards the suffix/prefix
check runs (phase 2).  On a phase-1 hit the result is `self` itself; on a
phase-2 hit it is the already-scanned prefix followed by all of `other`. -/
def overlapAux (other : List Atom) : List Atom → List Atom → Option (List Atom)
  | pre, [] => if matchesFront other [] then some pre else none
  | pre, a :: rest' =>
    if other.length ≤ (a :: rest').length then
      if matchesFront other (a :: rest') then some (pre ++ (a :: rest'))
      else overlapAux other (pre ++ [a]) rest'
    else
      if matchesFront (a :: rest') other then some (pre ++ other)
      else overlapAux other (pre ++ [a]) rest'

/-- `Term::checkForOverlap`: `none` when `other` is longer than `self`
(the guard at the top of the source function), otherwise the two-phase
scan. -/
def Term.checkForOverlap (self other : Term) : Option Term :=
  if other.length > self.length then none else overlapAux other [] self

/-- An oriented rewrite rule.  Modelled from the spec: the `Rule` class of
the missing header carries (LHS, RHS, deleted flag, derivation depth),
spec §3. -/
structure Rule where
  lhs : Term
  rhs : Term
  deleted : Bool
  depth : Nat
deriving DecidableEq

/-- Modelled from the spec: the two-argument `Rule` constructor used by
`Rules.emplace_back(lhs, rhs)` and by the RHS-canonicalisation pass.  Per
spec §4.5 a freshly appended rule has `deleted = false`, and initial rules
have depth 0; no call site of the source passes any other depth. -/
def Rule.make (lhs rhs : Term) : Rule :=
  { lhs := lhs, rhs := rhs, deleted := false, depth := 0 }

/-- Modelled from the spec: `Rule::apply(term)` is equivalent to
`term.rewriteSubTerm(LHS, RHS)` (spec §4.3); `none` means the rule did not
apply and the term is unchanged. -/
def Rule.apply (r : Rule) (t : Term) : Option Term :=
  Term.rewriteSubTerm t r.lhs r.rhs

/-- Modelled from the spec: `Rule::canReduceLeftHandSide(other)` is true iff
`other.LHS` occurs as a subterm of `self.LHS` and `other ≠ self`
(spec §4.3). -/
def Rule.canReduceLeftHandSide (self other : Rule) : Bool :=
  (Term.findSubTerm self.lhs other.lhs).isSome && decide (self ≠ other)

/-- The rewrite system state: the append-only rule vector, the FIFO worklist
of rule-index pairs, and the FIFO merge-candidate queue.  The protocol graph
member `Protos` is read-only after `initialize`, so it is passed to each
operation as an explicit parameter `g` instead of being stored. -/
structure RewriteSystem where
  rules : List Rule
  worklist : List (Nat × Nat)
  mergedAssociatedTypes : List (Term × Term)
deriving DecidableEq

/-- The body of the simplifier's inner `for` loop: skip deleted rules,
attempt to apply a live rule once to the evolving term, recording whether
any rule has applied so far. -/
def simplifyStep (acc : Bool × Term) (rule : Rule) : Bool × Term :=
  if rule.deleted then acc
  else
    match Rule.apply rule acc.2 with
    | some t' => (true, t')
    | none => acc

/-- One pass of the simplifier's outer loop: scan the rule vector in order,
attempting each live rule once; the Bool records whether any rule applied in
this pass (`tryAgain`). -/
def simplifyPass (rules : List Rule) (t : Term) : Bool × Term :=
  rules.foldl simplifyStep (false, t)

/-- `RewriteSystem::simplify`: repeat passes until a full pass applies no
rule; returns whether the term changed, together with the reduced term.
The source's `while (true)` loop is bounded by fuel. -/
def simplify (fuel : Nat) (rules : List Rule) (t : Term) :
    Except Failure (Bool × Term) :=
  match fuel with
  | 0 => .error .fuel
  | fuel + 1 =>
    match simplifyPass rules t with
    | (true, t') =>
      match simplify fuel rules t' with
      | .ok (_, u) => .ok (true, u)
      | .error e => .error e
    | (false, t') => .ok (false, t')

/-- The merge-candidate test of `addRule` (lines 263–267 of the source):
equal lengths, all atoms but the last pairwise equal, and both trailing
atoms `AssociatedType` with the same name. -/
def isMergeCandidate (lhs rhs : Term) : Bool :=
  lhs.length = rhs.length &&
  matchesFront lhs.dropLast rhs &&
  match lhs.getLast?, rhs.getLast? with
  | some (.assocType _ ln), some (.assocType _ rn) => ln = rn
  | _, _ => false

/-- `RewriteSystem::addRule`: simplify both sides, drop the rule if they
became equal, orient so the larger side is the LHS, append the rule, record
a merge candidate when applicable and enqueue worklist pairs against every
other rule index in both orders. -/
def addRule (g : ProtocolGraph) (fuel : Nat) (st : RewriteSystem)
    (lhs0 rhs0 : Term) : Except Failure (Bool × RewriteSystem) :=
  match simplify fuel st.rules lhs0 with
  | .error e => .error e
  | .ok (_, lhs1) =>
    match simplify fuel st.rules rhs0 with
    | .error e => .error e
    | .ok (_, rhs1) =>
      let result := Term.compare g lhs1 rhs1
      if result = 0 then .ok (false, st)
      else
        let lhs := if result < 0 then rhs1 else lhs1
        let rhs := if result < 0 then lhs1 else rhs1
        let i := st.rules.length
        let rules' := st.rules ++ [Rule.make lhs rhs]
        let merged' :=
          if isMergeCandidate lhs rhs
          then st.mergedAssociatedTypes ++ [(lhs, rhs)]
          else st.mergedAssociatedTypes
        let wl' := st.worklist ++
          (((List.range rules'.length).filter (fun j => j != i)).map
            (fun j => [(i, j), (j, i)])).flatten
        .ok (true, { rules := rules', worklist := wl',
                     mergedAssociatedTypes := merged' })

/-- The recursion of `std::merge` (comparator `compareProtocols < 0`,
stable: ties take from the first range).  The step count is bounded by the
total length of the two lists, made an explicit argument so the definition
is structurally recursive and evaluates inside the kernel. -/
def mergeProtocolListsGo (g : ProtocolGraph) :
    Nat → List Nat → List Nat → List Nat
  | 0, _, qs => qs
  | _ + 1, [], qs => qs
  | _ + 1, p :: ps, [] => p :: ps
  | n + 1, p :: ps, q :: qs =>
    if g.compareProtocols q p < 0 then
      q :: mergeProtocolListsGo g n (p :: ps) qs
    else p :: mergeProtocolListsGo g n ps (q :: qs)

/-- The stable merge of the two sorted protocol lists in
`mergeAssociatedTypes` (`std::merge` with comparator
`compareProtocols < 0`). -/
def mergeProtocolLists (g : ProtocolGraph) (ps qs : List Nat) : List Nat :=
  mergeProtocolListsGo g (ps.length + qs.length) ps qs

/-- `RewriteSystem::mergeAssociatedTypes`: merge the two protocol lists and
keep a protocol of the merged list iff no protocol of the *left* atom's list
equals it or inherits from it (the `std::find_if` over `protos`); the
source's `assert`s become `none`. -/
def mergeAssociatedTypes (g : ProtocolGraph) (lhsA rhsA : Atom) :
    Option Atom :=
  match lhsA, rhsA with
  | .assocType protos lname, .assocType otherProtos rname =>
    if lname ≠ rname then none
    else if ¬ 0 < Atom.compare g (.assocType protos lname)
                    (.assocType otherProtos rname) then none
    else if ¬ protos.length ≤ otherProtos.length then none
    else
      let newProtos := mergeProtocolLists g protos otherProtos
      let minimalProtos := newProtos.filter (fun newProto =>
        ! protos.any (fun thisProto =>
            thisProto == newProto || g.inheritsFrom thisProto newProto))
      if minimalProtos.length < protos.length then none
      else if minimalProtos.length < otherProtos.length then none
      else some (.assocType minimalProtos lname)
  | _, _ => none

/-- The conformance-lifting loop inside `processMergedAssociatedTypes`
(lines 396–420): for every rule of the snapshot whose LHS is
`[X, [Q]]` with `X ∈ {aₗ, aᵣ}`, assert the rule has shape `[X,[Q]] → [X]`
and add the lifted rule `[m, [Q]] → [m]`.  The source iterates the `Rules`
vector by reference while the inner `addRule` may append to it; the
range-for is modelled as iterating the snapshot taken when the loop
starts. -/
def conformanceFold (g : ProtocolGraph) (fuel : Nat) (la ra mergedAtom : Atom) :
    List Rule → RewriteSystem → Except Failure RewriteSystem
  | [], st => .ok st
  | r :: rest, st =>
    match r.lhs with
    | [x, Atom.protocol q] =>
      if x = la || x = ra then
        match r.rhs with
        | [y] =>
          if y = x then
            let otherRHS := [mergedAtom]
            let newLHS := otherRHS ++ [Atom.protocol q]
            match addRule g fuel st newLHS otherRHS with
            | .error e => .error e
            | .ok (_, st') => conformanceFold g fuel la ra mergedAtom rest st'
          else .error .assertFailed   -- assert(otherRHS[0] == otherLHS[0])
        | _ => .error .assertFailed   -- assert(otherRHS.size() == 1)
      else conformanceFold g fuel la ra mergedAtom rest st
    | _ => conformanceFold g fuel la ra mergedAtom rest st

/-- The `while (i < MergedAssociatedTypes.size())` loop of
`processMergedAssociatedTypes`: for candidate (L, R) merge the trailing
atoms, add `L → M` and `R → M`, then run conformance lifting.  Candidates
appended by the inner `addRule` calls are picked up because the size is
re-read each iteration. -/
def processMergedLoop (g : ProtocolGraph) (fuelAdd : Nat) :
    Nat → Nat → RewriteSystem → Except Failure RewriteSystem
  | 0, _, _ => .error .fuel
  | fuel + 1, i, st =>
    if hi : i < st.mergedAssociatedTypes.length then
      let pair := st.mergedAssociatedTypes[i]
      match pair.1.getLast?, pair.2.getLast? with
      | some la, some ra =>
        match mergeAssociatedTypes g la ra with
        | none => .error .assertFailed
        | some mergedAtom =>
          let mergedTerm := pair.1.dropLast ++ [mergedAtom]
          match addRule g fuelAdd st pair.1 mergedTerm with
          | .error e => .error e
          | .ok (_, st1) =>
            match addRule g fuelAdd st1 pair.2 mergedTerm with
            | .error e => .error e
            | .ok (_, st2) =>
              match conformanceFold g fuelAdd la ra mergedAtom st2.rules st2 with
              | .error e => .error e
              | .ok st3 => processMergedLoop g fuelAdd fuel (i + 1) st3
      | _, _ => .error .assertFailed   -- Term::back() on an empty term
    else .ok st

/-- `RewriteSystem::processMergedAssociatedTypes`: early-return on an empty
queue, else drain it from index 0 and clear it. -/
def processMergedAssociatedTypes (g : ProtocolGraph) (fuel : Nat)
    (st : RewriteSystem) : Except Failure RewriteSystem :=
  if st.mergedAssociatedTypes.isEmpty then .ok st
  else
    match processMergedLoop g fuel fuel 0 st with
    | .error e => .error e
    | .ok st' => .ok { st' with mergedAssociatedTypes := [] }

/-- Result variants of `computeConfluentCompletion`. -/
inductive CompletionResult where
  | success
  | maxIterations
  | maxDepth
deriving DecidableEq

/-- The retirement scan after a successful critical-pair addition (lines
465–476): every live rule other than the new rule at index `i` whose LHS can
be reduced by the new rule is tombstoned.  `j` is the index of the head of
the remaining list. -/
def deleteScan (newRule : Rule) (i : Nat) : Nat → List Rule → List Rule
  | _, [] => []
  | j, r :: rest =>
    (if j = i then r
     else if r.deleted then r
     else if r.canReduceLeftHandSide newRule then { r with deleted := true }
     else r) :: deleteScan newRule i (j + 1) rest

/-- The worklist loop of `RewriteSystem::computeConfluentCompletion`: pop a
pair, skip deleted rules and non-overlaps, form the critical pair, add the
oriented rule, stop on budget exhaustion, retire subsumed rules and process
merge candidates.  `.success` signals that the worklist drained. -/
def completionLoop (g : ProtocolGraph) :
    Nat → RewriteSystem → Nat → Nat →
    Except Failure (CompletionResult × RewriteSystem)
  | 0, _, _, _ => .error .fuel
  | fuel + 1, st, maxIterations, maxDepth =>
    match st.worklist with
    | [] => .ok (.success, st)
    | pair :: wl =>
      let st0 : RewriteSystem := { st with worklist := wl }
      match st0.rules[pair.1]?, st0.rules[pair.2]? with
      | some lhsRule, some rhsRule =>
        if lhsRule.deleted || rhsRule.deleted then
          completionLoop g fuel st0 maxIterations maxDepth
        else
          match Term.checkForOverlap lhsRule.lhs rhsRule.lhs with
          | none => completionLoop g fuel st0 maxIterations maxDepth
          | some overlap =>
            let first := (Rule.apply lhsRule overlap).getD overlap
            let second := (Rule.apply rhsRule overlap).getD overlap
            let i := st0.rules.length
            match addRule g fuel st0 first second with
            | .error e => .error e
            | .ok (added, st1) =>
              if !added then completionLoop g fuel st1 maxIterations maxDepth
              else if maxIterations = 0 then .ok (.maxIterations, st1)
              else
                match st1.rules[i]? with
                | none => .error .assertFailed
                | some newRule =>
                  if newRule.depth > maxDepth then .ok (.maxDepth, st1)
                  else
                    let st2 : RewriteSystem :=
                      { st1 with rules := deleteScan newRule i 0 st1.rules }
                    match processMergedAssociatedTypes g fuel st2 with
                    | .error e => .error e
                    | .ok st3 =>
                      completionLoop g fuel st3 (maxIterations - 1) maxDepth
      | _, _ => .error .assertFailed   -- Rules[pair.first] out of range

/-- The RHS-canonicalisation pass at the end of `computeConfluentCompletion`
(lines 482–486): for each rule in order, simplify its RHS against the
current (partially rewritten) rule vector and replace the rule by
`Rule(LHS, simplified RHS)` — a freshly constructed rule. -/
def rhsPass (fuel : Nat) : List Rule → List Rule → Except Failure (List Rule)
  | done, [] => .ok done
  | done, r :: rest =>
    match simplify fuel (done ++ r :: rest) r.rhs with
    | .error e => .error e
    | .ok (_, rhs') => rhsPass fuel (done ++ [Rule.make r.lhs rhs']) rest

/-- Insertion of a rule into a list sorted by LHS ascending. -/
def insertRule (g : ProtocolGraph) (r : Rule) : List Rule → List Rule
  | [] => [r]
  | x :: xs =>
    if Term.compare g r.lhs x.lhs < 0 then r :: x :: xs
    else x :: insertRule g r xs

/-- The cosmetic sort at the end of `computeConfluentCompletion` (lines
489–492): sort the rule vector by LHS ascending.  The source uses
`std::sort`, whose order on comparator-equal elements is unspecified; this
deterministic insertion sort agrees with it on rule vectors whose LHSs are
pairwise distinct. -/
def sortRules (g : ProtocolGraph) : List Rule → List Rule
  | [] => []
  | r :: rs => insertRule g r (sortRules g rs)

/-- `RewriteSystem::computeConfluentCompletion`: drain the worklist; on
budget exhaustion return early with the current state; when the worklist
drains, run RHS canonicalisation and the cosmetic sort and return
`Success`. -/
def computeConfluentCompletion (g : ProtocolGraph) (fuel : Nat)
    (st : RewriteSystem) (maxIterations maxDepth : Nat) :
    Except Failure (CompletionResult × RewriteSystem) :=
  match completionLoop g fuel st maxIterations maxDepth with
  | .error e => .error e
  | .ok (CompletionResult.success, st') =>
    match rhsPass fuel [] st'.rules with
    | .error e => .error e
    | .ok rules' => .ok (.success, { st' with rules := sortRules g rules' })
  | .ok (res, st') => .ok (res, st')

/-! ## Auxiliary predicates and concrete inputs used by the theorems -/

/-- Entry `i` of `rs'` exists and is still tombstoned whenever entry `i` of
`rs` was tombstoned. -/
def MonoDel (rs rs' : List Rule) : Prop :=
  ∀ (i : Nat) (r : Rule), rs[i]? = some r → r.deleted = true →
    ∃ r' : Rule, rs'[i]? = some r' ∧ r'.deleted = true

/-- Every rule of the vector has derivation depth 0. -/
def AllDepthZero (rs : List Rule) : Prop := ∀ r ∈ rs, r.depth = 0

/-- Specification device for the phase-2 scan: the length of the longest
suffix of `rest` matching the front of `other`, scanning longest-first
exactly as `overlapAux` does. -/
def suffixScan (other : List Atom) : List Atom → Option Nat
  | [] => none
  | a :: rest' =>
    if matchesFront (a :: rest') other then some (a :: rest').length
    else suffixScan other rest'

/-- A concrete protocol graph: protocols ordered as the naturals, with no
inheritance. -/
def gEx : ProtocolGraph :=
  ⟨fun p q => if p < q then -1 else if p = q then 0 else 1, fun _ _ => false⟩

/-- A concrete protocol graph in which protocol 1 inherits from
protocol 2. -/
def g4 : ProtocolGraph :=
  ⟨fun p q => if p < q then -1 else if p = q then 0 else 1,
   fun p q => p == 1 && q == 2⟩

/-- The empty rewrite system (the state before any `addRule` call). -/
def emptySt : RewriteSystem := ⟨[], [], []⟩

/-- Shorthand for a Name atom. -/
def nm (s : String) : Atom := Atom.name s

/-- Test harness: run `addRule` with ample fuel and keep the state. -/
def addRuleD (g : ProtocolGraph) (st : RewriteSystem) (l r : Term) :
    RewriteSystem :=
  match addRule g 50 st l r with
  | .ok (_, st') => st'
  | .error _ => st

/-- The system holding the rules `a.b.c → a` and `b.c → b` (in that order),
as built by two `addRule` calls.  Completing it appends `a.b → a` (which
subsumes and so tombstones rule 0) and then `a.c → a`. -/
def c1Init : RewriteSystem :=
  addRuleD gEx (addRuleD gEx emptySt [nm "a", nm "b", nm "c"] [nm "a"])
    [nm "b", nm "c"] [nm "b"]

/-- Seven rules `xᵢ.y → uᵢ` (i = 1..4) and `y.zⱼ → vⱼ` (j = 1..3): every
(i, j) pair has the suffix/prefix overlap `xᵢ.y.zⱼ`, yielding twelve
distinct critical-pair rules, far more than a budget of five. -/
def c3Init : RewriteSystem :=
  [([nm "a", nm "y"], [nm "p"]),
   ([nm "b", nm "y"], [nm "q"]),
   ([nm "c", nm "y"], [nm "r"]),
   ([nm "d", nm "y"], [nm "s"]),
   ([nm "y", nm "e"], [nm "t"]),
   ([nm "y", nm "f"], [nm "u"]),
   ([nm "y", nm "g"], [nm "v"])].foldl
    (fun st p => addRuleD gEx st p.1 p.2) emptySt

/-- The associated type `[P2:T]` (protocol handle 2). -/
def aX1 : Atom := Atom.assocType [2] "T"

/-- The associated type `[P1:T]` (protocol handle 1). -/
def aX2 : Atom := Atom.assocType [1] "T"

/-- The protocol atom `[Q]` (protocol handle 0). -/
def aQ : Atom := Atom.protocol 0

/-- The system holding the conformance-shaped rule `[P2:T].[Q] → a` (whose
RHS atom differs from its LHS head) and the merge-candidate rule
`[P2:T] → [P1:T]`.  Completion reaches `processMergedAssociatedTypes` with
that candidate while the first rule matches the conformance-lifting
pattern, so `assert(otherRHS[0] == otherLHS[0])` fires. -/
def c9Init : RewriteSystem :=
  addRuleD gEx (addRuleD gEx emptySt [aX1, aQ] [nm "a"]) [aX1] [aX2]

/-- The state after `addRule` of `(a, b)` on the empty system: the oriented
rule `b → a`. -/
def stOriented : RewriteSystem := ⟨[Rule.make [nm "b"] [nm "a"]], [], []⟩

/-- A system holding one tombstoned rule, for the monotonicity witness. -/
def stDel : RewriteSystem := ⟨[⟨[nm "b"], [nm "a"], true, 0⟩], [], []⟩

/-! ## Lemmas about subterm matching and overlap detection -/

theorem matchesFront_iff (o s : List Atom) :
    matchesFront o s = true ↔ ∃ v, s = o ++ v := by
  induction o generalizing s with
  | nil => simp [matchesFront]
  | cons a as ih =>
    cases s with
    | nil =>
      simp [matchesFront]
    | cons b bs =>
      constructor
      · intro h
        simp only [matchesFront] at h
        split at h
        · next hab =>
          subst hab
          obtain ⟨v, rfl⟩ := (ih bs).mp h
          exact ⟨v, rfl⟩
        · exact absurd h (by simp)
      · rintro ⟨v, hv⟩
        rw [List.cons_append] at hv
        injection hv with h1 h2
        subst h1
        simp only [matchesFront, if_pos rfl]
        exact (ih bs).mpr ⟨v, h2⟩

theorem searchIdx_isSome_of_front (o s : List Atom)
    (h : matchesFront o s = true) : (searchIdx s o).isSome = true := by
  cases s with
  | nil => simp [searchIdx, h]
  | cons a s' => simp [searchIdx, h]

theorem searchIdx_isSome_cons (o s' : List Atom) (a : Atom)
    (h : (searchIdx s' o).isSome = true) :
    (searchIdx (a :: s') o).isSome = true := by
  simp only [searchIdx]
  split
  · rfl
  · simpa using h

theorem searchIdx_isSome_of_decomp (o u v : List Atom) :
    (searchIdx (u ++ o ++ v) o).isSome = true := by
  induction u with
  | nil =>
    exact searchIdx_isSome_of_front o (o ++ v)
      ((matchesFront_iff o (o ++ v)).mpr ⟨v, rfl⟩)
  | cons a u' ih =>
    exact searchIdx_isSome_cons o (u' ++ o ++ v) a ih

theorem findSubTerm_isSome_of_decomp (t s u v : List Atom)
    (h : t = u ++ s ++ v) : (Term.findSubTerm t s).isSome = true := by
  subst h
  have hlen : ¬ s.length > (u ++ s ++ v).length := by
    simp only [List.length_append]
    omega
  simp only [Term.findSubTerm, if_neg hlen]
  exact searchIdx_isSome_of_decomp s u v

theorem rewriteSubTerm_isSome_of_decomp (t s u v rhsT : List Atom)
    (h : t = u ++ s ++ v) : (Term.rewriteSubTerm t s rhsT).isSome = true := by
  have := findSubTerm_isSome_of_decomp t s u v h
  simp only [Term.rewriteSubTerm]
  cases hfind : Term.findSubTerm t s with
  | none => rw [hfind] at this; simp at this
  | some i => simp

/-- Soundness of the overlap scan: any result is either the whole of
`self = pre ++ rest` with `other` contained in the unscanned part, or the
scanned prefix followed by the whole of `other`, with the split point a
suffix/prefix match. -/
theorem overlapAux_sound (other : List Atom) :
    ∀ pre rest res, overlapAux other pre rest = some res →
      (res = pre ++ rest ∧ ∃ u v, rest = u ++ other ++ v) ∨
      (∃ p s q, pre ++ rest = p ++ s ∧ other = s ++ q ∧ res = p ++ other) := by
  intro pre rest
  induction rest generalizing pre with
  | nil =>
    intro res h
    simp only [overlapAux] at h
    split at h
    · next hm =>
      obtain ⟨v, hv⟩ := (matchesFront_iff other []).mp hm
      have hoe : other = [] := by
        cases other with
        | nil => rfl
        | cons x xs => simp at hv
      subst hoe
      injection h with h
      subst h
      exact .inl ⟨by simp, [], [], by simp⟩
    · exact absurd h (by simp)
  | cons a rest' ih =>
    intro res h
    simp only [overlapAux] at h
    split at h
    · -- phase 1: other still fits
      split at h
      · next hm =>
        obtain ⟨v, hv⟩ := (matchesFront_iff other (a :: rest')).mp hm
        injection h with h
        subst h
        exact .inl ⟨rfl, [], v, by simpa using hv⟩
      · rcases ih (pre ++ [a]) res h with h1 | h2
        · obtain ⟨hres, u, v, hrest⟩ := h1
          exact .inl ⟨by simp [hres, hrest], a :: u, v, by simp [hrest]⟩
        · obtain ⟨p, s, q, hsplit, hother, hres⟩ := h2
          exact .inr ⟨p, s, q, by simpa using hsplit, hother, hres⟩
    · -- phase 2: suffix/prefix scan
      split at h
      · next hm =>
        obtain ⟨q, hq⟩ := (matchesFront_iff (a :: rest') other).mp hm
        injection h with h
        subst h
        exact .inr ⟨pre, a :: rest', q, rfl, hq, rfl⟩
      · rcases ih (pre ++ [a]) res h with h1 | h2
        · obtain ⟨hres, u, v, hrest⟩ := h1
          exact .inl ⟨by simp [hres, hrest], a :: u, v, by simp [hrest]⟩
        · obtain ⟨p, s, q, hsplit, hother, hres⟩ := h2
          exact .inr ⟨p, s, q, by simpa using hsplit, hother, hres⟩

/-! ## Lemmas about the simplifier -/

theorem foldl_simplifyStep_true (rules : List Rule) :
    ∀ u : Term, (List.foldl simplifyStep (true, u) rules).1 = true := by
  induction rules with
  | nil => intro u; rfl
  | cons r rs ih =>
    intro u
    simp only [List.foldl]
    rcases hstep : simplifyStep (true, u) r with ⟨b, w⟩
    have hb : b = true := by
      simp only [simplifyStep] at hstep
      split at hstep
      · injection hstep with h1 h2; exact h1.symm
      · split at hstep
        · injection hstep with h1 h2; exact h1.symm
        · injection hstep with h1 h2; exact h1.symm
    subst hb
    exact ih w

theorem foldl_simplifyStep_false (rules : List Rule) :
    ∀ acc : Bool × Term, (List.foldl simplifyStep acc rules).1 = false →
      List.foldl simplifyStep acc rules = acc := by
  induction rules with
  | nil => intro acc _; rfl
  | cons r rs ih =>
    intro acc hfst
    simp only [List.foldl] at hfst ⊢
    rcases hstep : simplifyStep acc r with ⟨b, w⟩
    rw [hstep] at hfst
    cases b with
    | true =>
      have := foldl_simplifyStep_true rs w
      rw [hfst] at this
      exact absurd this (by simp)
    | false =>
      have hacc : acc = (false, w) := by
        simp only [simplifyStep] at hstep
        split at hstep
        · exact hstep
        · split at hstep
          · injection hstep with h1 _; exact absurd h1 (by simp)
          · exact hstep
      rw [hacc]
      exact ih (false, w) hfst

theorem simplifyPass_false (rules : List Rule) (t u : Term)
    (h : simplifyPass rules t = (false, u)) : u = t := by
  have := foldl_simplifyStep_false rules (false, t) (by
    simp only [simplifyPass] at h
    rw [h])
  simp only [simplifyPass] at h
  rw [h] at this
  injection this

/-- The normal form reached by `simplify` is a fixpoint of a single pass:
the loop only exits after a pass in which no rule applied. -/
theorem simplify_reaches_fixpoint (fuel : Nat) (rules : List Rule) :
    ∀ t t' c, simplify fuel rules t = .ok (c, t') →
      simplifyPass rules t' = (false, t') := by
  induction fuel with
  | zero => intro t t' c h; exact absurd h (by simp [simplify])
  | succ fuel ih =>
    intro t t' c h
    simp only [simplify] at h
    split at h
    · -- a rule applied in this pass; the loop recurses
      next t1 hpass =>
      split at h
      · next c2 u hrec =>
        injection h with h
        injection h with h1 h2
        subst h2
        exact ih t1 u c2 hrec
      · exact absurd h (by simp)
    · -- no rule applied: the loop exits with the term unchanged
      next t1 hpass =>
      injection h with h
      injection h with h1 h2
      subst h2
      have ht : t1 = t := simplifyPass_false rules t t1 hpass
      rw [ht] at hpass ⊢
      exact hpass

/-! ## Sign-flip lemmas for the comparison chain (total-order behaviour) -/

theorem charListLt_asymm : ∀ a b : List Char,
    charListLt a b = true → charListLt b a = false := by
  intro a
  induction a with
  | nil =>
    intro b h
    cases b with
    | nil => simp [charListLt] at h
    | cons d ds => rfl
  | cons c cs ih =>
    intro b h
    cases b with
    | nil => simp [charListLt] at h
    | cons d ds =>
      simp only [charListLt] at h ⊢
      by_cases h1 : c.toNat < d.toNat
      · rw [if_neg (show ¬ d.toNat < c.toNat by omega), if_pos h1]
      · by_cases h2 : d.toNat < c.toNat
        · rw [if_neg h1, if_pos h2] at h
          exact absurd h (by simp)
        · rw [if_neg h1, if_neg h2] at h
          rw [if_neg h2, if_neg h1]
          exact ih ds h

theorem cmpStr_flip (s t : String) :
    (cmpStr s t < 0 → 0 < cmpStr t s) ∧
    (cmpStr s t = 0 → cmpStr t s = 0) := by
  unfold cmpStr
  by_cases h1 : charListLt s.data t.data = true
  · have h2 : charListLt t.data s.data = false := charListLt_asymm _ _ h1
    rw [if_pos h1, if_neg (by simp [h2]), if_pos h1]
    exact ⟨fun _ => by omega, fun h => by omega⟩
  · have h1f : charListLt s.data t.data = false := by
      simpa using h1
    by_cases h2 : charListLt t.data s.data = true
    · rw [if_neg (by simp [h1f]), if_pos h2, if_pos h2]
      exact ⟨fun h => by omega, fun h => by omega⟩
    · have h2f : charListLt t.data s.data = false := by
        simpa using h2
      rw [if_neg (by simp [h1f]), if_neg (by simp [h2f]),
        if_neg (by simp [h2f]), if_neg (by simp [h1f])]
      exact ⟨fun h => by omega, fun _ => rfl⟩

theorem cmpLayout_flip (l l' : Nat) :
    (cmpLayout l l' < 0 → 0 < cmpLayout l' l) ∧
    (cmpLayout l l' = 0 → cmpLayout l' l = 0) := by
  unfold cmpLayout
  rcases lt_trichotomy l l' with hxy | hxy | hxy
  · rw [if_pos hxy, if_neg (asymm hxy), if_pos hxy]
    exact ⟨fun _ => by omega, fun h => by omega⟩
  · subst hxy
    simp [lt_irrefl]
  · rw [if_neg (asymm hxy), if_pos hxy, if_pos hxy]
    exact ⟨fun h => by omega, fun h => by omega⟩

theorem protocols_flip (g : ProtocolGraph) (hg : g.Valid) (p q : Nat) :
    (g.compareProtocols p q < 0 → 0 < g.compareProtocols q p) ∧
    (g.compareProtocols p q = 0 → g.compareProtocols q p = 0) := by
  constructor
  · intro h
    exact (hg.2 q p).mpr h
  · intro h
    exact (hg.1 q p).mpr ((hg.1 p q).mp h).symm

theorem compareProtoLists_flip (g : ProtocolGraph) (hg : g.Valid) :
    ∀ ps qs : List Nat,
      (compareProtoLists g ps qs < 0 → 0 < compareProtoLists g qs ps) ∧
      (compareProtoLists g ps qs = 0 → compareProtoLists g qs ps = 0) := by
  intro ps
  induction ps with
  | nil =>
    intro qs
    cases qs <;> simp [compareProtoLists]
  | cons p ps' ih =>
    intro qs
    cases qs with
    | nil => simp [compareProtoLists]
    | cons q qs' =>
      simp only [compareProtoLists]
      by_cases hc : g.compareProtocols p q = 0
      · have hc' : g.compareProtocols q p = 0 := (protocols_flip g hg p q).2 hc
        rw [if_neg (by simpa using hc), if_neg (by simpa using hc')]
        exact ih qs'
      · rw [if_pos (by simpa using hc)]
        constructor
        · intro h
          have h' : 0 < g.compareProtocols q p := (protocols_flip g hg p q).1 h
          rw [if_pos (by omega : ¬ g.compareProtocols q p = 0)]
          exact h'
        · intro h
          exact absurd h hc

theorem Atom.compare_kind_ne (g : ProtocolGraph) (a b : Atom)
    (h : a.kindIndex ≠ b.kindIndex) :
    (Atom.compare g a b < 0 → 0 < Atom.compare g b a) ∧
    (Atom.compare g a b = 0 → Atom.compare g b a = 0) := by
  rw [Atom.compare.eq_def, Atom.compare.eq_def, if_pos h,
    if_pos (by omega : b.kindIndex ≠ a.kindIndex)]
  rcases Nat.lt_trichotomy a.kindIndex b.kindIndex with hlt | heq | hgt
  · rw [if_pos hlt, if_neg (by omega)]
    exact ⟨fun _ => by omega, fun h2 => by omega⟩
  · exact absurd heq h
  · rw [if_neg (by omega), if_pos hgt]
    exact ⟨fun h2 => by omega, fun h2 => by omega⟩

theorem Atom.compare_name_eq (g : ProtocolGraph) (s t : String) :
    Atom.compare g (.name s) (.name t) = cmpStr s t := rfl

theorem Atom.compare_protocol_eq (g : ProtocolGraph) (p q : Nat) :
    Atom.compare g (.protocol p) (.protocol q) = g.compareProtocols p q := rfl

theorem Atom.compare_assocType_eq (g : ProtocolGraph) (ps : List Nat)
    (s : String) (qs : List Nat) (t : String) :
    Atom.compare g (.assocType ps s) (.assocType qs t) =
      if ps.length ≠ qs.length then
        (if ps.length > qs.length then -1 else 1)
      else
        if compareProtoLists g ps qs ≠ 0 then compareProtoLists g ps qs
        else cmpStr s t := rfl

theorem Atom.compare_genericParam_eq (g : ProtocolGraph) (d i d' i' : Nat) :
    Atom.compare g (.genericParam d i) (.genericParam d' i') =
      if d ≠ d' then (if d < d' then -1 else 1)
      else if i ≠ i' then (if i < i' then -1 else 1)
      else 0 := rfl

theorem Atom.compare_layout_eq (g : ProtocolGraph) (l l' : Nat) :
    Atom.compare g (.layout l) (.layout l') = cmpLayout l l' := rfl

theorem Atom.compare_flip (g : ProtocolGraph) (hg : g.Valid) (a b : Atom) :
    (Atom.compare g a b < 0 → 0 < Atom.compare g b a) ∧
    (Atom.compare g a b = 0 → Atom.compare g b a = 0) := by
  cases a <;> cases b <;>
    first
      | (apply Atom.compare_kind_ne g; simp only [Atom.kindIndex]; omega)
      | skip
  · -- Name / Name
    rename_i s t
    rw [Atom.compare_name_eq, Atom.compare_name_eq]
    exact cmpStr_flip s t
  · -- Protocol / Protocol
    rename_i p q
    rw [Atom.compare_protocol_eq, Atom.compare_protocol_eq]
    exact protocols_flip g hg p q
  · -- AssociatedType / AssociatedType
    rename_i ps s qs t
    rw [Atom.compare_assocType_eq, Atom.compare_assocType_eq]
    by_cases hl : ps.length = qs.length
    · rw [if_neg (show ¬ ps.length ≠ qs.length by omega),
        if_neg (show ¬ qs.length ≠ ps.length by omega)]
      by_cases hc : compareProtoLists g ps qs = 0
      · have hc' : compareProtoLists g qs ps = 0 :=
          (compareProtoLists_flip g hg ps qs).2 hc
        rw [if_neg (show ¬ compareProtoLists g ps qs ≠ 0 by simpa using hc),
          if_neg (show ¬ compareProtoLists g qs ps ≠ 0 by simpa using hc')]
        exact cmpStr_flip s t
      · rw [if_pos (show compareProtoLists g ps qs ≠ 0 from hc)]
        constructor
        · intro h
          have h' : 0 < compareProtoLists g qs ps :=
            (compareProtoLists_flip g hg ps qs).1 h
          rw [if_pos (show compareProtoLists g qs ps ≠ 0 by omega)]
          exact h'
        · intro h
          exact absurd h hc
    · rw [if_pos (show ps.length ≠ qs.length from hl),
        if_pos (show qs.length ≠ ps.length by omega)]
      rcases Nat.lt_trichotomy ps.length qs.length with hlt | heq | hgt
      · rw [if_neg (show ¬ ps.length > qs.length by omega),
          if_pos (show qs.length > ps.length by omega)]
        exact ⟨fun h => by omega, fun h => by omega⟩
      · exact absurd heq hl
      · rw [if_pos (show ps.length > qs.length by omega),
          if_neg (show ¬ qs.length > ps.length by omega)]
        exact ⟨fun h => by omega, fun h => by omega⟩
  · -- GenericParam / GenericParam
    rename_i d i d' i'
    rw [Atom.compare_genericParam_eq, Atom.compare_genericParam_eq]
    by_cases hd : d = d'
    · subst hd
      rw [if_neg (show ¬ d ≠ d by omega), if_neg (show ¬ d ≠ d by omega)]
      by_cases hi : i = i'
      · subst hi
        rw [if_neg (show ¬ i ≠ i by omega)]
        exact ⟨fun h => by omega, fun h => h⟩
      · rw [if_pos (show i ≠ i' from hi), if_pos (show i' ≠ i by omega)]
        rcases Nat.lt_trichotomy i i' with hlt | heq | hgt
        · rw [if_pos hlt, if_neg (show ¬ i' < i by omega)]
          exact ⟨fun h => by omega, fun h => by omega⟩
        · exact absurd heq hi
        · rw [if_neg (show ¬ i < i' by omega), if_pos hgt]
          exact ⟨fun h => by omega, fun h => by omega⟩
    · rw [if_pos (show d ≠ d' from hd), if_pos (show d' ≠ d by omega)]
      rcases Nat.lt_trichotomy d d' with hlt | heq | hgt
      · rw [if_pos hlt, if_neg (show ¬ d' < d by omega)]
        exact ⟨fun h => by omega, fun h => by omega⟩
      · exact absurd heq hd
      · rw [if_neg (show ¬ d < d' by omega), if_pos hgt]
        exact ⟨fun h => by omega, fun h => by omega⟩
  · -- Layout / Layout
    rename_i l l'
    rw [Atom.compare_layout_eq, Atom.compare_layout_eq]
    exact cmpLayout_flip l l'

theorem compareAtomsLex_flip (g : ProtocolGraph) (hg : g.Valid) :
    ∀ xs ys : List Atom,
      (compareAtomsLex g xs ys < 0 → 0 < compareAtomsLex g ys xs) ∧
      (compareAtomsLex g xs ys = 0 → compareAtomsLex g ys xs = 0) := by
  intro xs
  induction xs with
  | nil =>
    intro ys
    cases ys <;> simp [compareAtomsLex]
  | cons x xs' ih =>
    intro ys
    cases ys with
    | nil => simp [compareAtomsLex]
    | cons y ys' =>
      simp only [compareAtomsLex]
      by_cases hc : Atom.compare g x y = 0
      · have hc' : Atom.compare g y x = 0 := (Atom.compare_flip g hg x y).2 hc
        rw [if_neg (by simpa using hc), if_neg (by simpa using hc')]
        exact ih ys'
      · rw [if_pos (by simpa using hc)]
        constructor
        · intro h
          have h' : 0 < Atom.compare g y x := (Atom.compare_flip g hg x y).1 h
          rw [if_pos (by omega : ¬ Atom.compare g y x = 0)]
          exact h'
        · intro h
          exact absurd h hc

/-- Flipping the arguments of the shortlex comparison flips a strict
comparison (the total-order fact `addRule` relies on when it swaps an
anti-oriented rule). -/
theorem Term.compare_flip_lt (g : ProtocolGraph) (hg : g.Valid) (t u : Term)
    (h : Term.compare g t u < 0) : 0 < Term.compare g u t := by
  simp only [Term.compare] at h ⊢
  by_cases hl : t.length = u.length
  · rw [if_neg (by omega)] at h ⊢
    exact (compareAtomsLex_flip g hg t u).1 h
  · rw [if_pos (by omega)] at h ⊢
    rcases Nat.lt_trichotomy t.length u.length with hlt | heq | hgt
    · rw [if_neg (by omega)]
      omega
    · exact absurd heq hl
    · rw [if_neg (by omega)] at h
      omega

/-! ## State-evolution lemmas: rule-vector growth, tombstone monotonicity
and derivation depths -/

theorem MonoDel.refl (rs : List Rule) : MonoDel rs rs :=
  fun _ r h hd => ⟨r, h, hd⟩

theorem MonoDel.trans {a b c : List Rule} (h1 : MonoDel a b)
    (h2 : MonoDel b c) : MonoDel a c := by
  intro i r h hd
  obtain ⟨r', h', hd'⟩ := h1 i r h hd
  exact h2 i r' h' hd'

theorem MonoDel.append (rs ext : List Rule) : MonoDel rs (rs ++ ext) := by
  intro i r h hd
  have hlt : i < rs.length := (List.getElem?_eq_some.mp h).1
  refine ⟨r, ?_, hd⟩
  rw [List.getElem?_append, if_pos hlt]
  exact h

theorem deleteScan_entry (nr : Rule) (i : Nat) :
    ∀ (rs : List Rule) (j k : Nat) (r : Rule), rs[k]? = some r →
      ∃ r', (deleteScan nr i j rs)[k]? = some r' ∧
        r'.depth = r.depth ∧ (r.deleted = true → r'.deleted = true) := by
  intro rs
  induction rs with
  | nil => intro j k r h; simp at h
  | cons x rs' ih =>
    intro j k r h
    cases k with
    | zero =>
      simp only [List.getElem?_cons_zero] at h
      injection h with h
      subst h
      simp only [deleteScan, List.getElem?_cons_zero]
      refine ⟨_, rfl, ?_, ?_⟩
      · split
        · rfl
        · split
          · rfl
          · split <;> rfl
      · intro hd
        simp [hd]
    | succ k' =>
      simp only [List.getElem?_cons_succ] at h
      simp only [deleteScan, List.getElem?_cons_succ]
      exact ih (j + 1) k' r h

theorem deleteScan_monoDel (nr : Rule) (i : Nat) (rs : List Rule) (j : Nat) :
    MonoDel rs (deleteScan nr i j rs) := by
  intro k r h hd
  obtain ⟨r', h', _, hdd⟩ := deleteScan_entry nr i rs j k r h
  exact ⟨r', h', hdd hd⟩

/-- Case analysis of `addRule`: a `false` return leaves the state untouched,
a `true` return appends exactly one freshly constructed rule. -/
theorem addRule_cases (g : ProtocolGraph) (fuel : Nat) (st : RewriteSystem)
    (l r : Term) (b : Bool) (st' : RewriteSystem)
    (h : addRule g fuel st l r = .ok (b, st')) :
    (b = false ∧ st' = st) ∨
    (b = true ∧ ∃ nl nr, st'.rules = st.rules ++ [Rule.make nl nr]) := by
  simp only [addRule] at h
  split at h
  · exact absurd h (by simp)
  · split at h
    · exact absurd h (by simp)
    · split at h
      · injection h with h
        injection h with h1 h2
        exact .inl ⟨h1.symm, h2.symm⟩
      · injection h with h
        injection h with h1 h2
        exact .inr ⟨h1.symm, _, _, congrArg RewriteSystem.rules h2.symm⟩

/-- The state returned by a `false`-returning `addRule` is the input state
(the only `false` exit is the trivial-rule drop before any mutation). -/
theorem addRule_false_eq (g : ProtocolGraph) (fuel : Nat) (st : RewriteSystem)
    (l r : Term) (st' : RewriteSystem)
    (h : addRule g fuel st l r = .ok (false, st')) : st' = st := by
  rcases addRule_cases g fuel st l r false st' h with ⟨_, he⟩ | ⟨hb, _⟩
  · exact he
  · exact absurd hb (by simp)

theorem addRule_monoDel (g : ProtocolGraph) (fuel : Nat) (st : RewriteSystem)
    (l r : Term) (b : Bool) (st' : RewriteSystem)
    (h : addRule g fuel st l r = .ok (b, st')) : MonoDel st.rules st'.rules := by
  rcases addRule_cases g fuel st l r b st' h with ⟨_, he⟩ | ⟨_, nl, nr, he⟩
  · rw [he]; exact MonoDel.refl _
  · rw [he]; exact MonoDel.append _ _

theorem addRule_append (g : ProtocolGraph) (fuel : Nat) (st : RewriteSystem)
    (l r : Term) (b : Bool) (st' : RewriteSystem)
    (h : addRule g fuel st l r = .ok (b, st')) :
    ∃ ext, st'.rules = st.rules ++ ext ∧ ∀ x ∈ ext, x.depth = 0 := by
  rcases addRule_cases g fuel st l r b st' h with ⟨_, he⟩ | ⟨_, nl, nr, he⟩
  · exact ⟨[], by simp [he], by simp⟩
  · exact ⟨[Rule.make nl nr], he, by intro x hx; simp at hx; simp [hx, Rule.make]⟩

theorem conformanceFold_append (g : ProtocolGraph) (fuel : Nat)
    (la ra m : Atom) :
    ∀ (snapshot : List Rule) (st st' : RewriteSystem),
      conformanceFold g fuel la ra m snapshot st = .ok st' →
      ∃ ext, st'.rules = st.rules ++ ext ∧ ∀ x ∈ ext, x.depth = 0 := by
  intro snapshot
  induction snapshot with
  | nil =>
    intro st st' h
    simp only [conformanceFold] at h
    injection h with h
    exact ⟨[], by simp [h], by simp⟩
  | cons r rest ih =>
    intro st st' h
    simp only [conformanceFold] at h
    split at h
    · split at h
      · split at h
        · split at h
          · split at h
            · exact absurd h (by simp)
            · next st1 _ =>
              obtain ⟨e1, he1, hd1⟩ := addRule_append g fuel st _ _ _ st1 (by assumption)
              obtain ⟨e2, he2, hd2⟩ := ih st1 st' h
              refine ⟨e1 ++ e2, by rw [he2, he1, List.append_assoc], ?_⟩
              intro x hx
              rcases List.mem_append.mp hx with hx | hx
              · exact hd1 x hx
              · exact hd2 x hx
          · exact absurd h (by simp)
        · exact absurd h (by simp)
      · exact ih st st' h
    · exact ih st st' h

theorem processMergedLoop_append (g : ProtocolGraph) (fuelAdd : Nat) :
    ∀ (fuel i : Nat) (st st' : RewriteSystem),
      processMergedLoop g fuelAdd fuel i st = .ok st' →
      ∃ ext, st'.rules = st.rules ++ ext ∧ ∀ x ∈ ext, x.depth = 0 := by
  intro fuel
  induction fuel with
  | zero => intro i st st' h; exact absurd h (by simp [processMergedLoop])
  | succ fuel ih =>
    intro i st st' h
    simp only [processMergedLoop] at h
    split at h
    · split at h
      · split at h
        · exact absurd h (by simp)
        · split at h
          · exact absurd h (by simp)
          · next st1 _ =>
            split at h
            · exact absurd h (by simp)
            · next st2 _ =>
              split at h
              · exact absurd h (by simp)
              · next st3 _ =>
                obtain ⟨e1, he1, hd1⟩ := addRule_append g fuelAdd st _ _ _ st1 (by assumption)
                obtain ⟨e2, he2, hd2⟩ := addRule_append g fuelAdd st1 _ _ _ st2 (by assumption)
                obtain ⟨e3, he3, hd3⟩ := conformanceFold_append g fuelAdd _ _ _ _ st2 st3 (by assumption)
                obtain ⟨e4, he4, hd4⟩ := ih (i + 1) st3 st' h
                refine ⟨e1 ++ e2 ++ e3 ++ e4, ?_, ?_⟩
                · rw [he4, he3, he2, he1]
                  simp [List.append_assoc]
                · intro x hx
                  simp only [List.mem_append] at hx
                  rcases hx with ((hx | hx) | hx) | hx
                  · exact hd1 x hx
                  · exact hd2 x hx
                  · exact hd3 x hx
                  · exact hd4 x hx
      · exact absurd h (by simp)
    · injection h with h
      exact ⟨[], by simp [h], by simp⟩

theorem processMerged_append (g : ProtocolGraph) (fuel : Nat)
    (st st' : RewriteSystem)
    (h : processMergedAssociatedTypes g fuel st = .ok st') :
    ∃ ext, st'.rules = st.rules ++ ext ∧ ∀ x ∈ ext, x.depth = 0 := by
  simp only [processMergedAssociatedTypes] at h
  split at h
  · injection h with h
    exact ⟨[], by simp [h], by simp⟩
  · split at h
    · exact absurd h (by simp)
    · next st1 heq =>
      injection h with h
      obtain ⟨ext, hext, hdep⟩ := processMergedLoop_append g fuel fuel 0 st st1 heq
      exact ⟨ext, by rw [← h]; exact hext, hdep⟩

/-- Tombstone monotonicity across the whole worklist loop: a rule deleted on
entry (or during the loop) is still deleted in the state the loop hands
back, whatever the completion outcome. -/
theorem completionLoop_monoDel (g : ProtocolGraph) :
    ∀ (fuel : Nat) (st : RewriteSystem) (mi md : Nat)
      (res : CompletionResult) (st' : RewriteSystem),
      completionLoop g fuel st mi md = .ok (res, st') →
      MonoDel st.rules st'.rules := by
  intro fuel
  induction fuel with
  | zero => intro st mi md res st' h; exact absurd h (by simp [completionLoop])
  | succ fuel ih =>
    intro st mi md res st' h
    simp only [completionLoop] at h
    split at h
    · injection h with h
      injection h with h1 h2
      rw [h2]
      exact MonoDel.refl _
    · split at h
      · split at h
        · exact (ih _ mi md res st' h : MonoDel _ _)
        · split at h
          · exact (ih _ mi md res st' h : MonoDel _ _)
          · split at h
            · exact absurd h (by simp)
            · next st1 haddR =>
              have hm1 := addRule_monoDel g fuel _ _ _ _ st1 haddR
              split at h
              · exact hm1.trans (ih st1 mi md res st' h)
              · split at h
                · injection h with h
                  injection h with h1 h2
                  rw [← h2]
                  exact hm1
                · split at h
                  · exact absurd h (by simp)
                  · next newRule _ =>
                    split at h
                    · injection h with h
                      injection h with h1 h2
                      rw [← h2]
                      exact hm1
                    · split at h
                      · exact absurd h (by simp)
                      · next st3 hpm =>
                        have hm2 : MonoDel st1.rules
                            (deleteScan newRule st.rules.length 0 st1.rules) :=
                          deleteScan_monoDel newRule st.rules.length st1.rules 0
                        obtain ⟨ext, hext, _⟩ := processMerged_append g fuel _ st3 hpm
                        have hm3 : MonoDel
                            (deleteScan newRule st.rules.length 0 st1.rules)
                            st3.rules := by
                          rw [hext]
                          exact MonoDel.append _ _
                        exact ((hm1.trans hm2).trans hm3).trans
                          (ih st3 (mi - 1) md res st' h)
      · exact absurd h (by simp)

theorem addRule_depthZero (g : ProtocolGraph) (fuel : Nat)
    (st : RewriteSystem) (l r : Term) (b : Bool) (st' : RewriteSystem)
    (h0 : AllDepthZero st.rules) (h : addRule g fuel st l r = .ok (b, st')) :
    AllDepthZero st'.rules := by
  obtain ⟨ext, hext, hdep⟩ := addRule_append g fuel st l r b st' h
  rw [hext]
  intro x hx
  rcases List.mem_append.mp hx with hx | hx
  · exact h0 x hx
  · exact hdep x hx

theorem deleteScan_depthZero (nr : Rule) (i : Nat) :
    ∀ (rs : List Rule) (j : Nat), AllDepthZero rs →
      AllDepthZero (deleteScan nr i j rs) := by
  intro rs
  induction rs with
  | nil => intro j _ r hr; simp [deleteScan] at hr
  | cons x rs' ih =>
    intro j h r hr
    simp only [deleteScan, List.mem_cons] at hr
    rcases hr with hr | hr
    · have hx : x.depth = 0 := h x (by simp)
      rw [hr]
      split
      · exact hx
      · split
        · exact hx
        · split
          · exact hx
          · exact hx
    · exact ih (j + 1) (fun y hy => h y (by simp [hy])) r hr

/-- Across the whole worklist loop every rule keeps derivation depth 0, and
the loop never exits through the depth budget: the depth of a freshly
appended rule is the constructor default 0, which can never exceed the
(unsigned) `maxDepth`. -/
theorem completionLoop_depthZero (g : ProtocolGraph) :
    ∀ (fuel : Nat) (st : RewriteSystem) (mi md : Nat)
      (res : CompletionResult) (st' : RewriteSystem),
      AllDepthZero st.rules →
      completionLoop g fuel st mi md = .ok (res, st') →
      AllDepthZero st'.rules ∧ res ≠ CompletionResult.maxDepth := by
  intro fuel
  induction fuel with
  | zero => intro st mi md res st' _ h; exact absurd h (by simp [completionLoop])
  | succ fuel ih =>
    intro st mi md res st' h0 h
    simp only [completionLoop] at h
    split at h
    · injection h with h
      injection h with h1 h2
      rw [← h1, ← h2]
      exact ⟨h0, by simp⟩
    · split at h
      · split at h
        · exact ih _ mi md res st' (by exact h0) h
        · split at h
          · exact ih _ mi md res st' (by exact h0) h
          · split at h
            · exact absurd h (by simp)
            · next st1 haddR =>
              have h1 : AllDepthZero st1.rules :=
                addRule_depthZero g fuel _ _ _ _ st1 (by exact h0) haddR
              split at h
              · exact ih st1 mi md res st' h1 h
              · split at h
                · injection h with h
                  injection h with hr1 hr2
                  rw [← hr1, ← hr2]
                  exact ⟨h1, by simp⟩
                · split at h
                  · exact absurd h (by simp)
                  · next newRule hfind =>
                    split at h
                    · -- the depth-budget exit: impossible, the new rule has
                      -- depth 0 and `0 > md` never holds
                      next hgt =>
                      have hmem : newRule ∈ st1.rules :=
                        List.getElem?_mem hfind
                      have := h1 newRule hmem
                      omega
                    · split at h
                      · exact absurd h (by simp)
                      · next st3 hpm =>
                        have h2 : AllDepthZero
                            (deleteScan newRule st.rules.length 0 st1.rules) :=
                          deleteScan_depthZero newRule st.rules.length
                            st1.rules 0 h1
                        obtain ⟨ext, hext, hdep⟩ :=
                          processMerged_append g fuel _ st3 hpm
                        have h3 : AllDepthZero st3.rules := by
                          rw [hext]
                          intro x hx
                          rcases List.mem_append.mp hx with hx | hx
                          · exact h2 x hx
                          · exact hdep x hx
                        exact ih st3 (mi - 1) md res st' h3 h
      · exact absurd h (by simp)

theorem insertRule_mem (g : ProtocolGraph) (r : Rule) :
    ∀ (xs : List Rule) (x : Rule), x ∈ insertRule g r xs → x = r ∨ x ∈ xs := by
  intro xs
  induction xs with
  | nil => intro x hx; simpa [insertRule] using hx
  | cons y ys ih =>
    intro x hx
    simp only [insertRule] at hx
    split at hx
    · rcases List.mem_cons.mp hx with hx | hx
      · exact .inl hx
      · exact .inr hx
    · rcases List.mem_cons.mp hx with hx | hx
      · exact .inr (by simp [hx])
      · rcases ih x hx with hx | hx
        · exact .inl hx
        · exact .inr (by simp [hx])

theorem sortRules_mem (g : ProtocolGraph) :
    ∀ (rs : List Rule) (x : Rule), x ∈ sortRules g rs → x ∈ rs := by
  intro rs
  induction rs with
  | nil => intro x hx; simp [sortRules] at hx
  | cons r rs' ih =>
    intro x hx
    simp only [sortRules] at hx
    rcases insertRule_mem g r _ x hx with hx | hx
    · simp [hx]
    · exact List.mem_cons_of_mem r (ih x hx)

/-- Every rule coming out of the RHS-canonicalisation pass is either one of
the already-processed rules or a freshly constructed rule (deleted flag
false, depth 0). -/
theorem rhsPass_mem (fuel : Nat) :
    ∀ (todo done out : List Rule), rhsPass fuel done todo = .ok out →
      ∀ r ∈ out, r ∈ done ∨ (r.deleted = false ∧ r.depth = 0) := by
  intro todo
  induction todo with
  | nil =>
    intro done out h r hr
    simp only [rhsPass] at h
    injection h with h
    rw [← h] at hr
    exact .inl hr
  | cons x rest ih =>
    intro done out h r hr
    simp only [rhsPass] at h
    split at h
    · exact absurd h (by simp)
    · next rhs' _ =>
      rcases ih (done ++ [Rule.make x.lhs rhs']) out h r hr with hmem | hprop
      · rcases List.mem_append.mp hmem with hmem | hmem
        · exact .inl hmem
        · simp only [List.mem_singleton] at hmem
          exact .inr (by simp [hmem, Rule.make])
      · exact .inr hprop

/-- The depth invariant carried through the whole of `complete`: with all
depths 0 on entry, `complete` never returns `MaxDepth`, and all depths are
still 0 afterwards (the finalisation passes rebuild rules with the
constructor default). -/
theorem computeConfluentCompletion_depthZero (g : ProtocolGraph) (fuel : Nat)
    (st : RewriteSystem) (mi md : Nat) (res : CompletionResult)
    (st' : RewriteSystem) (h0 : AllDepthZero st.rules)
    (h : computeConfluentCompletion g fuel st mi md = .ok (res, st')) :
    AllDepthZero st'.rules ∧ res ≠ CompletionResult.maxDepth := by
  cases hL : completionLoop g fuel st mi md with
  | error e => simp [computeConfluentCompletion, hL] at h
  | ok p =>
    rcases p with ⟨res1, stL⟩
    obtain ⟨hz, hnd⟩ := completionLoop_depthZero g fuel st mi md res1 stL h0 hL
    cases res1 with
    | success =>
      simp only [computeConfluentCompletion, hL] at h
      split at h
      · exact absurd h (by simp)
      · next rules' hpass =>
        injection h with h
        injection h with h1 h2
        constructor
        · rw [← h2]
          intro r hr
          have hr' : r ∈ rules' := sortRules_mem g rules' r hr
          rcases rhsPass_mem fuel stL.rules [] rules' hpass r hr' with hmem | hprop
          · simp at hmem
          · exact hprop.2
        · rw [← h1]
          simp
    | maxIterations =>
      simp only [computeConfluentCompletion, hL] at h
      injection h with h
      injection h with h1 h2
      rw [← h1, ← h2]
      exact ⟨hz, by simp⟩
    | maxDepth =>
      exact absurd rfl hnd

theorem suffixScan_sound (other : List Atom) :
    ∀ rest k, suffixScan other rest = some k →
      ∃ p s, rest = p ++ s ∧ s.length = k ∧ 0 < k ∧
        matchesFront s other = true := by
  intro rest
  induction rest with
  | nil => intro k h; simp [suffixScan] at h
  | cons a rest' ih =>
    intro k h
    simp only [suffixScan] at h
    split at h
    · next hm =>
      injection h with h
      exact ⟨[], a :: rest', by simp, h, by rw [← h]; simp, hm⟩
    · obtain ⟨p, s, hrest, hk, hk0, hms⟩ := ih k h
      exact ⟨a :: p, s, by simp [hrest], hk, hk0, hms⟩

theorem suffixScan_complete (other : List Atom) :
    ∀ rest p0 s0, rest = p0 ++ s0 → s0 ≠ [] → matchesFront s0 other = true →
      ∃ k, suffixScan other rest = some k ∧ s0.length ≤ k := by
  intro rest
  induction rest with
  | nil =>
    intro p0 s0 hr hs0 _
    have hs : s0 = [] := by
      cases p0 with
      | nil => simpa using hr.symm
      | cons b bs => simp at hr
    exact absurd hs hs0
  | cons a rest' ih =>
    intro p0 s0 hr hs0 hms
    simp only [suffixScan]
    split
    · refine ⟨(a :: rest').length, rfl, ?_⟩
      have : s0.length ≤ (p0 ++ s0).length := by simp
      rw [← hr] at this
      exact this
    · next hm =>
      cases p0 with
      | nil =>
        simp only [List.nil_append] at hr
        rw [← hr] at hms
        exact absurd hms (by simp [hm])
      | cons b p0' =>
        rw [List.cons_append] at hr
        injection hr with h1 h2
        exact ih p0' s0 h2 hs0 hms

theorem suffixScan_cons_pos (other : List Atom) (a : Atom) (rest' : List Atom)
    (h : matchesFront (a :: rest') other = true) :
    suffixScan other (a :: rest') = some (a :: rest').length := by
  simp [suffixScan, h]

theorem suffixScan_cons_neg (other : List Atom) (a : Atom) (rest' : List Atom)
    (h : matchesFront (a :: rest') other = false) :
    suffixScan other (a :: rest') = suffixScan other rest' := by
  simp [suffixScan, h]

/-- Characterisation of the overlap scan when `other` occurs nowhere
contiguously in `self = pre ++ rest`: its outcome is exactly that of the
longest-suffix scan, and a hit of length `k` produces
`self ++ other.drop k`. -/
theorem overlapAux_of_no_contain (other : List Atom) :
    ∀ rest pre, (∀ u v, pre ++ rest ≠ u ++ other ++ v) →
      overlapAux other pre rest =
        (suffixScan other rest).map (fun k => pre ++ rest ++ other.drop k) := by
  intro rest
  induction rest with
  | nil =>
    intro pre hnc
    have hne : other ≠ [] := by
      intro h
      exact hnc pre [] (by simp [h])
    have hm : matchesFront other [] = false := by
      cases other with
      | nil => exact absurd rfl hne
      | cons x xs => rfl
    simp [overlapAux, suffixScan, hm]
  | cons a rest' ih =>
    intro pre hnc
    have hnc' : ∀ u v, (pre ++ [a]) ++ rest' ≠ u ++ other ++ v := by
      intro u v h
      exact hnc u v (by simpa using h)
    simp only [overlapAux]
    split
    · -- phase 1 region
      next hfit =>
      have hcm : matchesFront other (a :: rest') = false := by
        cases hcon : matchesFront other (a :: rest') with
        | false => rfl
        | true =>
          obtain ⟨v, hv⟩ := (matchesFront_iff other (a :: rest')).mp hcon
          exact absurd (by simp [hv] : pre ++ a :: rest' = pre ++ other ++ v)
            (hnc pre v)
      rw [if_neg (by simp [hcm])]
      rw [ih (pre ++ [a]) hnc']
      have hsfx : matchesFront (a :: rest') other = false := by
        cases hcon : matchesFront (a :: rest') other with
        | false => rfl
        | true =>
          obtain ⟨q, hq⟩ := (matchesFront_iff (a :: rest') other).mp hcon
          -- other = (a :: rest') ++ q while other fits inside a :: rest',
          -- so q = [] and other = a :: rest': a containment, contradiction
          have hlq : other.length = (a :: rest').length + q.length := by
            rw [hq]
            simp only [List.length_append]
          simp only [List.length_cons] at hfit hlq
          have hq0 : q = [] := by
            have : q.length = 0 := by omega
            simpa using this
          rw [hq0, List.append_nil] at hq
          exact absurd (by simp [hq] : pre ++ a :: rest' = pre ++ other ++ [])
            (hnc pre [])
      rw [suffixScan_cons_neg other a rest' hsfx]
      cases suffixScan other rest' with
      | none => rfl
      | some k => simp
    · -- phase 2 region
      cases hm : matchesFront (a :: rest') other with
      | true =>
        obtain ⟨q, hq⟩ := (matchesFront_iff (a :: rest') other).mp hm
        rw [if_pos (by simp [hm])]
        rw [suffixScan_cons_pos other a rest' hm]
        have hdrop : other.drop (a :: rest').length = q := by
          rw [hq]
          exact List.drop_left _ _
        simp only [Option.map_some, hdrop, hq]
        simp
      | false =>
        rw [if_neg (by simp [hm])]
        rw [ih (pre ++ [a]) hnc']
        rw [suffixScan_cons_neg other a rest' hm]
        cases suffixScan other rest' with
        | none => rfl
        | some k => simp

/-! ## Validity of the concrete protocol graph -/

theorem gEx_valid : gEx.Valid := by
  constructor
  · intro p q
    show (if p < q then (-1 : Int) else if p = q then 0 else 1) = 0 ↔ p = q
    split_ifs with h1 h2
    · exact ⟨fun h => absurd h (by decide), fun h => absurd h (by omega)⟩
    · exact ⟨fun _ => h2, fun _ => rfl⟩
    · exact ⟨fun h => absurd h (by decide), fun h => absurd h h2⟩
  · intro p q
    show (0 < if p < q then (-1 : Int) else if p = q then 0 else 1) ↔
      (if q < p then (-1 : Int) else if q = p then 0 else 1) < 0
    rcases Nat.lt_trichotomy p q with h | h | h
    · rw [if_pos h, if_neg (show ¬ q < p by omega),
        if_neg (show ¬ q = p by omega)]
      exact ⟨fun hc => absurd hc (by decide), fun hc => absurd hc (by decide)⟩
    · subst h
      rw [if_neg (show ¬ p < p by omega), if_pos rfl]
    · rw [if_neg (show ¬ p < q by omega), if_neg (show ¬ p = q by omega),
        if_pos h]
      exact ⟨fun _ => by decide, fun _ => by decide⟩

/-! ## Claim theorems -/

/-- C5 (amended): when `other` is **no longer than** `self` (the guard the
claim omits), `other` occurs nowhere contiguously in `self`, and some
non-empty proper suffix `s` of `self` equals the equal-length prefix of
`other`, then `check_for_overlap` succeeds and returns `self` concatenated
with the tail of `other` past the longest such suffix/prefix match (a match
at least as long as `s`). -/
theorem checkForOverlap_suffix_case (self other : Term)
    (hlen : other.length ≤ self.length)
    (hnc : ∀ u v : List Atom, self ≠ u ++ other ++ v)
    (p s : List Atom) (hps : self = p ++ s) (hs : s ≠ []) (_hp : p ≠ [])
    (q : List Atom) (hq : other = s ++ q) :
    ∃ s' q' p' : List Atom, self = p' ++ s' ∧ other = s' ++ q' ∧
      s.length ≤ s'.length ∧
      Term.checkForOverlap self other = some (self ++ q') := by
  have hm : matchesFront s other = true :=
    (matchesFront_iff s other).mpr ⟨q, hq⟩
  obtain ⟨k, hscan, hk⟩ := suffixScan_complete other self p s hps hs hm
  have hnc' : ∀ u v : List Atom, [] ++ self ≠ u ++ other ++ v := by
    intro u v h
    exact hnc u v (by simpa using h)
  have haux := overlapAux_of_no_contain other self [] hnc'
  rw [hscan] at haux
  obtain ⟨p1, s1, hsplit, hlen1, hk0, hm1⟩ := suffixScan_sound other self k hscan
  obtain ⟨q1, hq1⟩ := (matchesFront_iff s1 other).mp hm1
  have hdrop : other.drop k = q1 := by
    rw [hq1, ← hlen1]
    exact List.drop_left s1 q1
  refine ⟨s1, other.drop k, p1, hsplit, ?_, by omega, ?_⟩
  · rw [hdrop]
    exact hq1
  · simp only [Term.checkForOverlap,
      if_neg (by omega : ¬ other.length > self.length)]
    rw [haux]
    simp

/-- C6: whenever `check_for_overlap(A, B)` succeeds with result `R`, either
`B` occurs contiguously in `R` or `R` is `A` with a suffix of `B` appended;
in both cases `A` and `B` occur contiguously in `R`, so
`rewrite_sub_term` on `R` succeeds for a rule with LHS `A` and for a rule
with LHS `B` (its Boolean outcome does not depend on the RHS supplied). -/
theorem checkForOverlap_sound (A B R : Term)
    (h : Term.checkForOverlap A B = some R) :
    ((∃ u v, R = u ++ B ++ v) ∨
      ∃ sfx, (∃ pp, B = pp ++ sfx) ∧ R = A ++ sfx) ∧
    (∃ u v, R = u ++ A ++ v) ∧ (∃ u v, R = u ++ B ++ v) ∧
    (∀ rhs : Term, (Term.rewriteSubTerm R A rhs).isSome = true) ∧
    (∀ rhs : Term, (Term.rewriteSubTerm R B rhs).isSome = true) := by
  simp only [Term.checkForOverlap] at h
  split at h
  · exact absurd h (by simp)
  · rcases overlapAux_sound B [] A R h with
      ⟨hres, u, v, hrest⟩ | ⟨p, sfx, q, hsplit, hother, hres⟩
    · simp only [List.nil_append] at hres
      subst hres
      refine ⟨.inl ⟨u, v, hrest⟩, ⟨[], [], by simp⟩, ⟨u, v, hrest⟩, ?_, ?_⟩
      · intro rhs
        exact rewriteSubTerm_isSome_of_decomp R R [] [] rhs (by simp)
      · intro rhs
        exact rewriteSubTerm_isSome_of_decomp R B u v rhs hrest
    · simp only [List.nil_append] at hsplit
      have hRA : R = A ++ q := by
        rw [hres, hother, hsplit, List.append_assoc]
      refine ⟨.inr ⟨q, ⟨sfx, hother⟩, hRA⟩, ⟨[], q, by simpa using hRA⟩,
        ⟨p, [], by simp [hres]⟩, ?_, ?_⟩
      · intro rhs
        exact rewriteSubTerm_isSome_of_decomp R A [] q rhs (by simpa using hRA)
      · intro rhs
        exact rewriteSubTerm_isSome_of_decomp R B p [] rhs (by simp [hres])

/-- C7: a `true`-returning `add_rule` appends exactly one rule, and that
rule is oriented: its LHS is strictly greater than its RHS in the shortlex
term order (given a protocol graph that is a total order, spec §6). -/
theorem addRule_orients (g : ProtocolGraph) (hg : g.Valid) (fuel : Nat)
    (st : RewriteSystem) (l r : Term) (st' : RewriteSystem)
    (h : addRule g fuel st l r = .ok (true, st')) :
    ∃ nr : Rule, st'.rules = st.rules ++ [nr] ∧
      0 < Term.compare g nr.lhs nr.rhs := by
  simp only [addRule] at h
  split at h
  · exact absurd h (by simp)
  · next b1 lhs1 heq1 =>
    split at h
    · exact absurd h (by simp)
    · next b2 rhs1 heq2 =>
      split at h
      · exact absurd h (by simp)
      · next hne =>
        injection h with h
        injection h with h1 h2
        refine ⟨Rule.make _ _, congrArg RewriteSystem.rules h2.symm, ?_⟩
        by_cases hlt : Term.compare g lhs1 rhs1 < 0
        · rw [if_pos hlt, if_pos hlt]
          exact Term.compare_flip_lt g hg lhs1 rhs1 hlt
        · rw [if_neg hlt, if_neg hlt]
          show 0 < Term.compare g lhs1 rhs1
          omega

/-- C8: the simplifier is idempotent.  If `simplify` reduced `t` to `t'`
(returning any flag), then running `simplify` again on `t'` returns `false`
and leaves `t'` unchanged: the loop only exits after a full pass in which no
live rule applied, so `t'` is a fixpoint of every live rule. -/
theorem simplify_idempotent (fuel fuel' : Nat) (rules : List Rule)
    (t t' : Term) (c : Bool) (h : simplify fuel rules t = .ok (c, t')) :
    simplify (fuel' + 1) rules t' = .ok (false, t') := by
  have hfix := simplify_reaches_fixpoint fuel rules t t' c h
  simp only [simplify, hfix]

/-- C10: a `false`-returning `add_rule` leaves the whole state unchanged:
no rule is appended, no worklist pair is enqueued, no merge candidate is
recorded (and in particular no deleted flag changes, the rule vector being
identical). -/
theorem addRule_false_state_unchanged (g : ProtocolGraph) (fuel : Nat)
    (st : RewriteSystem) (l r : Term) (st' : RewriteSystem)
    (h : addRule g fuel st l r = .ok (false, st')) :
    st'.rules = st.rules ∧ st'.worklist = st.worklist ∧
    st'.mergedAssociatedTypes = st.mergedAssociatedTypes := by
  have he : st' = st := addRule_false_eq g fuel st l r st' h
  simp [he]

/-- C4 (amended): the protocol list of the atom produced by
`merge_associated_types(a, b)` contains no protocol that some protocol of
`a`'s list equals or inherits from — that is exactly the filter the source
applies (`std::find_if` over `protos`, the *left* atom's list).  It does
not guarantee minimality among the survivors coming from `b`'s list. -/
theorem mergeAssociatedTypes_no_lhs_dominated (g : ProtocolGraph)
    (lps : List Nat) (ln : String) (rhsA : Atom) (ps : List Nat)
    (rn : String)
    (h : mergeAssociatedTypes g (.assocType lps ln) rhsA
        = some (.assocType ps rn)) :
    ∀ x ∈ ps, ¬ ∃ q ∈ lps, q = x ∨ g.inheritsFrom q x = true := by
  cases rhsA with
  | assocType rps rn2 =>
    simp only [mergeAssociatedTypes] at h
    split at h
    · exact absurd h (by simp)
    · split at h
      · exact absurd h (by simp)
      · split at h
        · exact absurd h (by simp)
        · split at h
          · exact absurd h (by simp)
          · split at h
            · exact absurd h (by simp)
            · injection h with h
              injection h with hps hnm
              intro x hx hex
              obtain ⟨q, hq, hqx⟩ := hex
              rw [← hps] at hx
              have hx' := List.mem_filter.mp hx
              have hany : (lps.any fun thisProto =>
                  thisProto == x || g.inheritsFrom thisProto x) = false := by
                have := hx'.2
                rwa [Bool.not_eq_true'] at this
              rw [List.any_eq_false] at hany
              have hq' := hany q hq
              rcases hqx with hqx | hqx
              · exact hq' (by simp [hqx])
              · exact hq' (by simp [hqx])
  | name s => simp [mergeAssociatedTypes] at h
  | protocol pr => simp [mergeAssociatedTypes] at h
  | genericParam d i => simp [mergeAssociatedTypes] at h
  | layout lc => simp [mergeAssociatedTypes] at h

/-- C1 (amended): the deleted flag is monotone under `add_rule` (which only
appends) and under the whole worklist loop of `complete` (which only
tombstones, never resurrects).  The RHS-canonicalisation pass excluded here
is the part the original claim gets wrong — see the counterexample. -/
theorem deleted_monotone :
    (∀ (g : ProtocolGraph) (fuel : Nat) (st : RewriteSystem) (l r : Term)
        (b : Bool) (st' : RewriteSystem),
      addRule g fuel st l r = .ok (b, st') → MonoDel st.rules st'.rules) ∧
    (∀ (g : ProtocolGraph) (fuel : Nat) (st : RewriteSystem) (mi md : Nat)
        (res : CompletionResult) (st' : RewriteSystem),
      completionLoop g fuel st mi md = .ok (res, st') →
      MonoDel st.rules st'.rules) :=
  ⟨fun g fuel st l r b st' h => addRule_monoDel g fuel st l r b st' h,
   fun g fuel st mi md res st' h =>
     completionLoop_monoDel g fuel st mi md res st' h⟩

/-- C2 (amended): every rule ever held by the system has derivation depth 0
— the two-argument `Rule` constructor is the only way rules are created and
the completion loop never computes a parent-based depth.  Consequently the
depth-budget check compares 0 against the unsigned `max_depth` and
`complete` can never return `MaxDepth`. -/
theorem rule_depths_all_zero :
    (∀ (g : ProtocolGraph) (fuel : Nat) (st : RewriteSystem) (l r : Term)
        (b : Bool) (st' : RewriteSystem),
      AllDepthZero st.rules → addRule g fuel st l r = .ok (b, st') →
      AllDepthZero st'.rules) ∧
    (∀ (g : ProtocolGraph) (fuel : Nat) (st : RewriteSystem) (mi md : Nat)
        (res : CompletionResult) (st' : RewriteSystem),
      AllDepthZero st.rules →
      computeConfluentCompletion g fuel st mi md = .ok (res, st') →
      AllDepthZero st'.rules ∧ res ≠ CompletionResult.maxDepth) :=
  ⟨fun g fuel st l r b st' h0 h => addRule_depthZero g fuel st l r b st' h0 h,
   fun g fuel st mi md res st' h0 h =>
     computeConfluentCompletion_depthZero g fuel st mi md res st' h0 h⟩

/-- C3 (amended): on the constructed seven-rule input whose completion keeps
producing critical-pair rules, `complete` with `max_iterations = 5` returns
`MaxIterations` having appended exactly six = `max_iterations + 1` new
rules: the budget is tested only *after* a critical-pair rule has already
been appended. -/
theorem maxIterations_budget_appends_six :
    (computeConfluentCompletion gEx 500 c3Init 5 10).map
        (fun p => (p.1, p.2.rules.length))
      = .ok (CompletionResult.maxIterations, 13) ∧
    c3Init.rules.length = 7 ∧ (13 : Nat) = 7 + (5 + 1) :=
  ⟨rfl, rfl, by omega⟩

/-- C9 (code bug): on the legitimate public-API input holding the
conformance-shaped rule `[P2:T].[Q] → a` (RHS atom ≠ LHS head) together
with the merge candidate `[P2:T] → [P1:T]`, completion reaches the
conformance-lifting loop and the source's
`assert(otherRHS[0] == otherLHS[0])` fails (modelled as `assertFailed`):
the asserted shape `[X,[Q]] → [X]` does not hold for every rule the loop
matches. -/
theorem conformance_lifting_assert_fails :
    computeConfluentCompletion gEx 100 c9Init 10 10
      = .error Failure.assertFailed := rfl

/-! ## Counterexamples -/

/-- C5 (counterexample): with `self = x.y` and `other = y.z.w`, `other`
occurs nowhere in `self` and the non-empty proper suffix `y` of `self`
equals the prefix of `other`, yet `check_for_overlap` returns false: the
guard at the top of the function rejects any `other` longer than `self`,
so the claim's "no restriction on the relative lengths" is wrong. -/
theorem checkForOverlap_rejects_longer_other :
    (∀ u v : List Atom,
      ([nm "x", nm "y"] : Term) ≠ u ++ [nm "y", nm "z", nm "w"] ++ v) ∧
    ([nm "x", nm "y"] : Term) = [nm "x"] ++ [nm "y"] ∧
    ([nm "y", nm "z", nm "w"] : Term) = [nm "y"] ++ [nm "z", nm "w"] ∧
    ([nm "y"] : List Atom) ≠ [] ∧ ([nm "x"] : List Atom) ≠ [] ∧
    Term.checkForOverlap [nm "x", nm "y"] [nm "y", nm "z", nm "w"] = none := by
  refine ⟨?_, rfl, rfl, by simp, by simp, rfl⟩
  intro u v h
  have hlen := congrArg List.length h
  simp only [List.length_append, List.length_cons, List.length_nil] at hlen
  omega

/-- C1 (counterexample): completing the system `{a.b.c → a, b.c → b}`
tombstones rule 0 (`a.b.c → a`, subsumed by the newly found `a.b → a`)
during the worklist loop, but after the RHS-canonicalisation pass at the
end of `complete` no rule is deleted any more: the pass rebuilds every
rule — deleted or not — with the fresh-rule constructor, resetting the
flag to false. -/
theorem rhs_canonicalisation_resurrects_deleted :
    (completionLoop gEx 99 c1Init 10 10).map
        (fun p => (p.1, p.2.rules.map Rule.deleted))
      = .ok (CompletionResult.success, [true, false, false, false]) ∧
    (computeConfluentCompletion gEx 99 c1Init 10 10).map
        (fun p => (p.1, p.2.rules.map Rule.deleted))
      = .ok (CompletionResult.success, [false, false, false, false]) :=
  ⟨rfl, rfl⟩

/-- C2 (counterexample): in the same completion run the worklist loop
appends rules 2 and 3 as critical pairs of parents of depth 0, so the claim
demands depth `1 + max 0 0 = 1` for them; the appended rules actually have
depth 0 (the constructor default — no call site ever passes a parent-based
depth). -/
theorem completion_rule_depth_not_parent_based :
    c1Init.rules.map Rule.depth = [0, 0] ∧
    (completionLoop gEx 99 c1Init 10 10).map
        (fun p => p.2.rules.map Rule.depth) = .ok [0, 0, 0, 0] ∧
    (0 : Nat) ≠ 1 + max 0 0 :=
  ⟨rfl, rfl, by omega⟩

/-- C3 (counterexample): completing the seven-rule input with
`max_iterations = 5` returns `MaxIterations` with thirteen rules, i.e. six
new rules beyond the initial seven — not the five the claim states. -/
theorem maxIterations_budget_not_five :
    (computeConfluentCompletion gEx 500 c3Init 5 10).map
        (fun p => (p.1, p.2.rules.length))
      = .ok (CompletionResult.maxIterations, 13) ∧
    c3Init.rules.length = 7 ∧ (13 : Nat) ≠ 7 + 5 :=
  ⟨rfl, rfl, by omega⟩

/-- C4 (counterexample): with `a = [P0:T]`, `b = [P1&P2:T]` (so `a > b` in
the atom order: more protocols are smaller), same name, and a graph where
P1 inherits from P2, the merged atom's protocol list is `[P1, P2]` — two
distinct protocols related by inheritance, because the source filters the
merged list only against `a`'s protocols. -/
theorem mergeAssociatedTypes_not_minimal :
    mergeAssociatedTypes g4 (Atom.assocType [0] "T")
        (Atom.assocType [1, 2] "T")
      = some (Atom.assocType [1, 2] "T") ∧
    g4.inheritsFrom 1 2 = true ∧ (1 : Nat) ≠ 2 ∧
    0 < Atom.compare g4 (Atom.assocType [0] "T")
        (Atom.assocType [1, 2] "T") :=
  ⟨rfl, rfl, by omega, by decide⟩

/-! ## Witnesses -/

/-- Witness for `checkForOverlap_suffix_case` at `self = x.y`,
`other = y.z` (suffix `y`, prefix `y`). -/
theorem checkForOverlap_suffix_case_witness :
    (Term.checkForOverlap [nm "x", nm "y"] [nm "y", nm "z"]).isSome = true := by
  obtain ⟨s', q', p', -, -, -, h4⟩ :=
    checkForOverlap_suffix_case [nm "x", nm "y"] [nm "y", nm "z"]
      (by simp)
      (by
        intro u v h
        have hlen := congrArg List.length h
        simp only [List.length_append, List.length_cons, List.length_nil]
          at hlen
        have hu : u = [] := List.eq_nil_of_length_eq_zero (by omega)
        have hv : v = [] := List.eq_nil_of_length_eq_zero (by omega)
        subst hu
        subst hv
        simp [nm] at h)
      [nm "x"] [nm "y"] rfl (by simp) (by simp) [nm "z"] rfl
  rw [h4]
  rfl

/-- Witness for `checkForOverlap_sound` at `A = x.y`, `B = y.z`,
`R = x.y.z`. -/
theorem checkForOverlap_sound_witness :
    (Term.rewriteSubTerm [nm "x", nm "y", nm "z"] [nm "x", nm "y"]
        [nm "w"]).isSome = true ∧
    (Term.rewriteSubTerm [nm "x", nm "y", nm "z"] [nm "y", nm "z"]
        [nm "w"]).isSome = true := by
  obtain ⟨-, -, -, h4, h5⟩ :=
    checkForOverlap_sound [nm "x", nm "y"] [nm "y", nm "z"]
      [nm "x", nm "y", nm "z"] (by rfl)
  exact ⟨h4 [nm "w"], h5 [nm "w"]⟩

/-- Witness for `addRule_orients`: adding `(a, b)` to the empty system
stores the oriented rule `b → a`, whose sides compare strictly. -/
theorem addRule_orients_witness :
    0 < Term.compare gEx [nm "b"] [nm "a"] := by
  obtain ⟨nr, h1, h2⟩ :=
    addRule_orients gEx gEx_valid 5 emptySt [nm "a"] [nm "b"] stOriented
      (by rfl)
  have hnr : nr = Rule.make [nm "b"] [nm "a"] := by
    have h0 : stOriented.rules = [Rule.make [nm "b"] [nm "a"]] := rfl
    rw [h0] at h1
    simp only [emptySt, List.nil_append] at h1
    injection h1 with hh _
    exact hh.symm
  rw [hnr] at h2
  exact h2

/-- Witness for `simplify_idempotent`: reducing `b` by the rule `b → a`
yields `a`; a second `simplify` call on `a` returns false and leaves it
unchanged. -/
theorem simplify_idempotent_witness :
    simplify (0 + 1) [Rule.make [nm "b"] [nm "a"]] [nm "a"]
      = .ok (false, [nm "a"]) :=
  simplify_idempotent 5 0 [Rule.make [nm "b"] [nm "a"]] [nm "b"] [nm "a"]
    true (by rfl)

/-- Witness for `addRule_false_state_unchanged`: adding the trivial pair
`(a, a)` to the empty system returns false and changes nothing. -/
theorem addRule_false_state_unchanged_witness :
    emptySt.rules = emptySt.rules ∧ emptySt.worklist = emptySt.worklist ∧
    emptySt.mergedAssociatedTypes = emptySt.mergedAssociatedTypes :=
  addRule_false_state_unchanged gEx 5 emptySt [nm "a"] [nm "a"] emptySt
    (by rfl)

/-- Witness for `mergeAssociatedTypes_no_lhs_dominated`: merging `[P2:T]`
with `[P1:T]` under `gEx` produces the list `[1]`; protocol 2 (the only
element of the left list) does not inherit from the survivor 1. -/
theorem mergeAssociatedTypes_no_lhs_dominated_witness :
    gEx.inheritsFrom 2 1 = false := by
  have h := mergeAssociatedTypes_no_lhs_dominated gEx [2] "T"
    (Atom.assocType [1] "T") [1] "T" (by rfl)
  by_contra hcon
  rw [Bool.not_eq_false] at hcon
  exact h 1 (by simp) ⟨2, by simp, .inr hcon⟩

/-- Witness for `deleted_monotone`: running the (empty-worklist) loop on a
system holding one tombstoned rule keeps it tombstoned. -/
theorem deleted_monotone_witness :
    ∃ r' : Rule, stDel.rules[0]? = some r' ∧ r'.deleted = true :=
  (deleted_monotone.2 gEx 3 stDel 5 5 CompletionResult.success stDel rfl) 0
    ⟨[nm "b"], [nm "a"], true, 0⟩ rfl rfl

/-- Witness for `rule_depths_all_zero`: completing the empty system
succeeds, and in particular the returned result is not `MaxDepth`. -/
theorem rule_depths_all_zero_witness :
    CompletionResult.success ≠ CompletionResult.maxDepth := by
  have h := rule_depths_all_zero.2 gEx 5 emptySt 3 3
    CompletionResult.success emptySt
    (fun r hr => by simp [emptySt] at hr) (by rfl)
  exact h.2
